import Mathlib

/-!
Verification of the wire-cell-python signal-processing conversion core.

Numeric values of the Python source (floats) are modelled as rationals;
lists model numpy arrays and Python lists.  Definitions are transcribed
from src/wirecell/sigproc/main module and src/wirecell/gen/sim.py; parts of
the repository that are referenced but absent from the provided sources
(the response array builder, the Garfield loader, the persistence layer,
the units table) are modelled from the specification and say so in their
doc comments.
-/

namespace WireCell

/-- Truncation toward zero, the semantics of the Python builtin int()
applied to a float: int(1.6) = 1, int(-1.6) = -1. -/
def pyint (q : ℚ) : ℤ :=
  if q < 0 then ⌈q⌉ else ⌊q⌋

/-- Rounding half to even, the semantics of the Python builtin round()
on floats: round(0.5) = 0, round(1.5) = 2, round(-1.5) = -2. -/
def pyround (q : ℚ) : ℤ :=
  if q - (⌊q⌋ : ℚ) < 1/2 then ⌊q⌋
  else if 1/2 < q - (⌊q⌋ : ℚ) then ⌊q⌋ + 1
  else if 2 ∣ ⌊q⌋ then ⌊q⌋ else ⌊q⌋ + 1

/-- PathResponse of the field-response data model: one simulated current
trace at one impact position (pitchpos, a signed offset from the nearest
wire center). -/
structure PathResponse where
  pitchpos : ℚ
  current : List ℚ
deriving DecidableEq, Repr, Inhabited

/-- PlaneResponse of the field-response data model: one sensing plane with
its wire pitch and its ordered paths. -/
structure PlaneResponse where
  planeid : ℤ
  location : ℚ
  pitch : ℚ
  paths : List PathResponse
deriving DecidableEq, Repr, Inhabited

/-- FieldResponse of the field-response data model: one full simulation
result. -/
structure FieldResponse where
  origin : ℚ
  tstart : ℚ
  period : ℚ
  speed : ℚ
  axis : ℚ × ℚ × ℚ
  planes : List PlaneResponse
deriving DecidableEq, Repr, Inhabited

/-- The wire index the frzero command assigns to a path: the source
computes wire = int(path.pitchpos / pr.pitch). -/
def frzero_wire (pitchpos pitch : ℚ) : ℤ :=
  pyint (pitchpos / pitch)

/-- The body of the frzero loop for one path of a plane of the given
pitch: when abs wire is at most number the path is kept unchanged,
otherwise every sample of its current is set to 0. -/
def frzero_path (number : ℤ) (pitch : ℚ) (path : PathResponse) : PathResponse :=
  if |frzero_wire path.pitchpos pitch| ≤ number then path
  else ⟨path.pitchpos, path.current.map fun _ => 0⟩

/-- The frzero command minus its file input and output: every plane of the
field response has the off-center wires of its paths zeroed; all other
fields pass through to the dumped output unchanged. -/
def frzero (number : ℤ) (fr : FieldResponse) : FieldResponse :=
  { fr with planes := fr.planes.map fun pr =>
      { pr with paths := pr.paths.map (frzero_path number pr.pitch) } }

/-- Median of a 1-D array with the semantics of numpy.median: sort
ascending; for odd length take the middle element, for even length the
mean of the two middle elements. -/
def npmedian (xs : List ℚ) : ℚ :=
  if xs.length % 2 = 1 then (List.insertionSort (· ≤ ·) xs).getD (xs.length / 2) 0
  else ((List.insertionSort (· ≤ ·) xs).getD (xs.length / 2 - 1) 0
        + (List.insertionSort (· ≤ ·) xs).getD (xs.length / 2) 0) / 2

/-- The function baseline_subtract of gen/sim.py: subtract from each
channel row of a frame (chan x tick) the median of that row, returning a
new frame and leaving the input frame unmodified (the model is a pure
function, as is the numpy broadcast expression in the source). -/
def baseline_subtract (frame : List (List ℚ)) : List (List ℚ) :=
  frame.map fun row => row.map fun x => x - npmedian row

/-- The positions i at which the source computes chd[i] > 1, where
chd = channels[1:] - channels[:-1]; this is numpy.where(chd > 1)[0] of
group_channel_indices of gen/sim.py. -/
def jump_positions (channels : List ℤ) : List ℕ :=
  (List.range (channels.length - 1)).filter fun i =>
    1 < channels.getD (i+1) 0 - channels.getD i 0

/-- The list chjumps of group_channel_indices of gen/sim.py:
-1 :: numpy.where(chd > 1)[0] ++ [channels.size - 1]. -/
def chjumps (channels : List ℤ) : List ℤ :=
  -1 :: (jump_positions channels).map (fun i : ℕ => (i : ℤ))
    ++ [(channels.length : ℤ) - 1]

/-- The function group_channel_indices of gen/sim.py: consecutive chjumps
entries a, b are paired as (a+1, b+1) via zip(chjumps[:-1], chjumps[1:]). -/
def group_channel_indices (channels : List ℤ) : List (ℤ × ℤ) :=
  (List.zip (chjumps channels).dropLast (chjumps channels).tail).map
    fun ab => (ab.1 + 1, ab.2 + 1)

/-- Interior boundaries of the index pairs: the jump positions shifted by
one, as signed integers. -/
def interior_boundaries (channels : List ℤ) : List ℤ :=
  (jump_positions channels).map fun i : ℕ => (i : ℤ) + 1

/-- Pairing of consecutive entries of a list of shape first :: mid ++ last:
zip of the list without its last element against the list without its
first element. -/
theorem pairs_cons_concat (x y : ℤ) (l : List ℤ) :
    List.zip (x :: l ++ [y]).dropLast (x :: l ++ [y]).tail
      = List.zip (x :: l) (l ++ [y]) := by
  rw [List.cons_append, List.tail_cons,
      List.dropLast_cons_of_ne_nil (by simp), List.dropLast_concat]

/-- The pairs returned by group_channel_indices are the zip of
0 :: interior_boundaries against interior_boundaries ++ [n]. -/
theorem group_channel_indices_eq (channels : List ℤ) :
    group_channel_indices channels
      = List.zip (0 :: interior_boundaries channels)
          (interior_boundaries channels ++ [(channels.length : ℤ)]) := by
  unfold group_channel_indices chjumps
  rw [pairs_cons_concat]
  have hf : (fun ab : ℤ × ℤ => (ab.1 + 1, ab.2 + 1))
      = Prod.map (· + 1) (· + 1) := by
    funext ab
    cases ab
    rfl
  rw [hf, ← List.zip_map]
  congr 1
  · simp [interior_boundaries, List.map_map, Function.comp]
  · simp [interior_boundaries, List.map_map, Function.comp, sub_add_cancel]

/-- Membership in the interior boundaries: z is an interior boundary
exactly when z = m + 1 for a position m with a channel gap above it. -/
theorem mem_interior_boundaries (channels : List ℤ) (z : ℤ) :
    z ∈ interior_boundaries channels
      ↔ ∃ m : ℕ, m + 1 < channels.length ∧ z = (m : ℤ) + 1 ∧
          1 < channels.getD (m+1) 0 - channels.getD m 0 := by
  unfold interior_boundaries
  rw [List.mem_map]
  constructor
  · rintro ⟨m, hm, rfl⟩
    rw [jump_positions, List.mem_filter, List.mem_range, decide_eq_true_eq] at hm
    exact ⟨m, by omega, rfl, hm.2⟩
  · rintro ⟨m, hm1, rfl, hm2⟩
    refine ⟨m, ?_, rfl⟩
    rw [jump_positions, List.mem_filter, List.mem_range, decide_eq_true_eq]
    exact ⟨by omega, hm2⟩

/-- Consecutive channels of a nondecreasing list are nondecreasing, read
through getD. -/
theorem chain_getD_le (channels : List ℤ) (hmono : List.Chain' (· ≤ ·) channels)
    (m : ℕ) (hm : m + 1 < channels.length) :
    channels.getD m 0 ≤ channels.getD (m+1) 0 := by
  rw [List.getD_eq_getElem _ _ (show m < channels.length by omega),
      List.getD_eq_getElem _ _ hm]
  have h := List.chain'_iff_get.mp hmono m (by omega)
  simpa [List.get_eq_getElem] using h

/-- Claim C9: for a non-empty nondecreasing channel list of length n the
index pairs of group_channel_indices tile the interval from 0 to n: the
pair list is non-empty, its first pair starts at 0, its last pair ends at
n, each pair end equals the next pair start, and the interior pair
boundaries are exactly the positions j whose channel number differs from
the one at position j-1 by more than 1. -/
theorem claim_C9_group_channel_indices (channels : List ℤ)
    (hne : channels ≠ []) (hmono : List.Chain' (· ≤ ·) channels) :
    0 < (group_channel_indices channels).length ∧
    ((group_channel_indices channels).getD 0 (0, 0)).1 = 0 ∧
    ((group_channel_indices channels).getD
        ((group_channel_indices channels).length - 1) (0, 0)).2
      = (channels.length : ℤ) ∧
    (∀ i, i + 1 < (group_channel_indices channels).length →
      ((group_channel_indices channels).getD i (0, 0)).2
        = ((group_channel_indices channels).getD (i+1) (0, 0)).1) ∧
    (∀ j : ℕ,
      (∃ i, i + 1 < (group_channel_indices channels).length ∧
          ((group_channel_indices channels).getD i (0, 0)).2 = (j : ℤ))
        ↔ (0 < j ∧ j < channels.length ∧
            1 < |channels.getD j 0 - channels.getD (j - 1) 0|)) := by
  rw [group_channel_indices_eq]
  have hlen : (List.zip (0 :: interior_boundaries channels)
      (interior_boundaries channels ++ [(channels.length : ℤ)])).length
      = (interior_boundaries channels).length + 1 := by
    simp [List.length_zip]
  have hget : ∀ i, i < (interior_boundaries channels).length + 1 →
      (List.zip (0 :: interior_boundaries channels)
        (interior_boundaries channels ++ [(channels.length : ℤ)])).getD i (0, 0)
        = ((0 :: interior_boundaries channels).getD i 0,
           (interior_boundaries channels ++ [(channels.length : ℤ)]).getD i 0) := by
    intro i hi
    have h1 : i < (0 :: interior_boundaries channels).length := by
      simp only [List.length_cons]
      omega
    have h2 : i < (interior_boundaries channels ++ [(channels.length : ℤ)]).length := by
      simp only [List.length_append, List.length_singleton]
      omega
    have hz : i < (List.zip (0 :: interior_boundaries channels)
        (interior_boundaries channels ++ [(channels.length : ℤ)])).length := by
      omega
    rw [List.getD_eq_getElem _ _ hz, List.getElem_zip,
        List.getD_eq_getElem _ _ h1, List.getD_eq_getElem _ _ h2]
  refine ⟨by omega, ?_, ?_, ?_, ?_⟩
  · rw [hget 0 (by omega)]
    simp
  · rw [hlen]
    have hk : (interior_boundaries channels).length + 1 - 1
        = (interior_boundaries channels).length := by omega
    rw [hk, hget _ (by omega)]
    have hb : (interior_boundaries channels).length
        < (interior_boundaries channels ++ [(channels.length : ℤ)]).length := by
      simp
    rw [List.getD_eq_getElem _ _ hb]
    simp
  · intro i hi
    rw [hlen] at hi
    rw [hget i (by omega), hget (i+1) (by omega)]
    have hib : i < (interior_boundaries channels).length := by omega
    have hia : i < (interior_boundaries channels ++ [(channels.length : ℤ)]).length := by
      simp only [List.length_append, List.length_singleton]
      omega
    rw [List.getD_eq_getElem _ _ hia, List.getElem_append_left hib]
    simp only [List.getD_cons_succ]
    rw [List.getD_eq_getElem _ _ hib]
  · intro j
    have hLHS : (∃ i, i + 1 < (List.zip (0 :: interior_boundaries channels)
        (interior_boundaries channels ++ [(channels.length : ℤ)])).length ∧
          ((List.zip (0 :: interior_boundaries channels)
            (interior_boundaries channels
              ++ [(channels.length : ℤ)])).getD i (0, 0)).2 = (j : ℤ))
        ↔ (j : ℤ) ∈ interior_boundaries channels := by
      constructor
      · rintro ⟨i, hi, heq⟩
        rw [hlen] at hi
        have hib : i < (interior_boundaries channels).length := by omega
        have hia : i < (interior_boundaries channels
            ++ [(channels.length : ℤ)]).length := by
          simp only [List.length_append, List.length_singleton]
          omega
        rw [hget i (by omega)] at heq
        simp only at heq
        rw [List.getD_eq_getElem _ _ hia, List.getElem_append_left hib] at heq
        rw [← heq]
        exact List.getElem_mem _
      · intro hmem
        obtain ⟨i, hib, hieq⟩ := List.mem_iff_getElem.mp hmem
        refine ⟨i, by omega, ?_⟩
        have hia : i < (interior_boundaries channels
            ++ [(channels.length : ℤ)]).length := by
          simp only [List.length_append, List.length_singleton]
          omega
        rw [hget i (by omega)]
        simp only
        rw [List.getD_eq_getElem _ _ hia, List.getElem_append_left hib, hieq]
    rw [hLHS, mem_interior_boundaries]
    constructor
    · rintro ⟨m, hm1, hmj, hm2⟩
      have hj : j = m + 1 := by exact_mod_cast hmj
      subst hj
      refine ⟨by omega, by omega, ?_⟩
      have hle := chain_getD_le channels hmono m hm1
      rw [Nat.add_sub_cancel]
      rw [abs_of_nonneg (by omega)]
      exact hm2
    · rintro ⟨hj0, hjn, hgap⟩
      refine ⟨j - 1, by omega, by omega, ?_⟩
      have hle := chain_getD_le channels hmono (j - 1) (by omega)
      have hj1 : j - 1 + 1 = j := by omega
      rw [hj1] at hle ⊢
      rw [abs_of_nonneg (by omega)] at hgap
      exact hgap

/-- Witness for claim C9 at the concrete channel list [1, 2, 3, 7, 8],
which group_channel_indices splits into pairs (0, 3) and (3, 5). -/
theorem claim_C9_group_channel_indices_witness :
    group_channel_indices [1, 2, 3, 7, 8] = [(0, 3), (3, 5)] ∧
    ((group_channel_indices [1, 2, 3, 7, 8]).getD 0 (0, 0)).1 = 0 ∧
    ((group_channel_indices [1, 2, 3, 7, 8]).getD
        ((group_channel_indices [1, 2, 3, 7, 8]).length - 1) (0, 0)).2
      = (([1, 2, 3, 7, 8] : List ℤ).length : ℤ) :=
  ⟨by decide,
   (claim_C9_group_channel_indices [1, 2, 3, 7, 8] (by decide)
     (by norm_num [List.chain'_cons])).2.1,
   (claim_C9_group_channel_indices [1, 2, 3, 7, 8] (by decide)
     (by norm_num [List.chain'_cons])).2.2.1⟩

/-- Python exception surrogates for evaluating configuration expressions:
NameError for an undefined symbol, TypeError for an operand type
mismatch, ZeroDivisionError for division by zero.  ConfigError stands for
the configuration-error type the specification names; the source code
never raises it, it evaluates configuration strings with the bare Python
builtin eval. -/
inductive PyExc where
  | nameError (s : String)
  | typeError
  | zeroDivisionError
  | configError
deriving DecidableEq, Repr

/-- Python values a configuration expression can produce: floats
(modelled as rationals) and strings. -/
inductive PyVal where
  | num (q : ℚ)
  | str (s : String)
deriving DecidableEq, Repr

/-- Abstract syntax of the Python expressions that can be fed to eval in
convert_garfield and channel_responses: numeric literals, names looked up
in the units namespace, string literals, and arithmetic operators
(parsing of the configuration string is abstracted away). -/
inductive PyExpr where
  | num (q : ℚ)
  | name (s : String)
  | strlit (s : String)
  | add (a b : PyExpr)
  | sub (a b : PyExpr)
  | mul (a b : PyExpr)
  | div (a b : PyExpr)
deriving DecidableEq, Repr

/-- Semantics of the Python builtin eval as invoked by the source
(eval(expr, units.__dict__)), restricted to the expression forms above:
a defined name yields its value, an undefined name raises NameError, a
string literal yields a string, arithmetic on two floats yields a float,
adding two strings concatenates them, division by zero raises
ZeroDivisionError, and any other operand combination raises TypeError. -/
def pyeval (env : List (String × ℚ)) : PyExpr → Except PyExc PyVal
  | .num q => .ok (.num q)
  | .strlit s => .ok (.str s)
  | .name s =>
    match env.find? fun kv => kv.1 == s with
    | some kv => .ok (.num kv.2)
    | none => .error (.nameError s)
  | .add a b =>
    match pyeval env a, pyeval env b with
    | .ok (.num p), .ok (.num q) => .ok (.num (p + q))
    | .ok (.str p), .ok (.str q) => .ok (.str (p ++ q))
    | .ok _, .ok _ => .error .typeError
    | .error e, _ => .error e
    | .ok _, .error e => .error e
  | .sub a b =>
    match pyeval env a, pyeval env b with
    | .ok (.num p), .ok (.num q) => .ok (.num (p - q))
    | .ok _, .ok _ => .error .typeError
    | .error e, _ => .error e
    | .ok _, .error e => .error e
  | .mul a b =>
    match pyeval env a, pyeval env b with
    | .ok (.num p), .ok (.num q) => .ok (.num (p * q))
    | .ok _, .ok _ => .error .typeError
    | .error e, _ => .error e
    | .ok _, .error e => .error e
  | .div a b =>
    match pyeval env a, pyeval env b with
    | .ok (.num p), .ok (.num q) =>
      if q = 0 then .error .zeroDivisionError else .ok (.num (p / q))
    | .ok _, .ok _ => .error .typeError
    | .error e, _ => .error e
    | .ok _, .error e => .error e

/-- Modelled from the spec: the process-wide units table (the wirecell
units module is not among the provided sources).  Scale factors follow
the CLHEP-style system of units the spec describes: canonical length
millimeter, canonical time nanosecond, canonical charge eplus, canonical
energy MeV. -/
def unitsTable : List (String × ℚ) :=
  [("mm", 1), ("cm", 10), ("meter", 1000),
   ("ns", 1), ("us", 1000), ("ms", 1000000),
   ("eplus", 1), ("fC", 10^13 / 1602176487),
   ("volt", 1/1000000), ("mV", 1/1000000000)]

/-- Expressions built only from numeric literals and names defined in the
environment, combined with the four arithmetic operators: the
numeric-and-unit arithmetic fragment of the claim. -/
inductive NumOnly (env : List (String × ℚ)) : PyExpr → Prop
  | num (q : ℚ) : NumOnly env (.num q)
  | name (s : String) (h : (env.find? fun kv => kv.1 == s).isSome) :
      NumOnly env (.name s)
  | add {a b : PyExpr} : NumOnly env a → NumOnly env b → NumOnly env (.add a b)
  | sub {a b : PyExpr} : NumOnly env a → NumOnly env b → NumOnly env (.sub a b)
  | mul {a b : PyExpr} : NumOnly env a → NumOnly env b → NumOnly env (.mul a b)
  | div {a b : PyExpr} : NumOnly env a → NumOnly env b → NumOnly env (.div a b)

/-- Claim C2 counterexample: evaluating a configuration string that
references an undefined symbol fails with Python NameError, not with a
ConfigError, and a string that is not numeric-and-unit arithmetic (a
string literal) does not fail at all: bare eval imposes no such check. -/
theorem claim_C2_counterexample :
    pyeval unitsTable (.name "banana") = .error (.nameError "banana") ∧
    (Except.error (PyExc.nameError "banana") : Except PyExc PyVal)
      ≠ (Except.error PyExc.configError : Except PyExc PyVal) ∧
    pyeval unitsTable (.strlit "abc") = .ok (.str "abc") ∧
    (PyVal.str "abc" ≠ PyVal.num 0) := by
  refine ⟨rfl, by simp, rfl, by decide⟩

/-- Claim C2 (amended): evaluation of a configuration expression that
combines only numeric literals and defined unit symbols with the
arithmetic operators produces a single scalar, except that a division by
zero raises ZeroDivisionError; an expression referencing an undefined
symbol fails with Python NameError (not a ConfigError); and an
expression that is not purely numeric-and-unit arithmetic need not fail:
a string literal evaluates to a non-scalar value without error. -/
theorem claim_C2_amended (env : List (String × ℚ)) (e : PyExpr)
    (h : NumOnly env e) :
    ((∃ q, pyeval env e = .ok (.num q))
        ∨ pyeval env e = .error .zeroDivisionError) ∧
    (∀ s, (env.find? fun kv => kv.1 == s) = none →
        pyeval env (.name s) = .error (.nameError s)) ∧
    (∀ s, pyeval env (.strlit s) = .ok (.str s)) := by
  refine ⟨?_, ?_, fun s => rfl⟩
  · induction h with
    | num q => exact Or.inl ⟨q, rfl⟩
    | name s hs =>
      obtain ⟨kv, hkv⟩ := Option.isSome_iff_exists.mp hs
      exact Or.inl ⟨kv.2, by simp [pyeval, hkv]⟩
    | add ha hb iha ihb =>
      rcases iha with ⟨p, hp⟩ | hp
      · rcases ihb with ⟨q, hq⟩ | hq
        · exact Or.inl ⟨p + q, by simp [pyeval, hp, hq]⟩
        · exact Or.inr (by simp [pyeval, hp, hq])
      · exact Or.inr (by simp [pyeval, hp])
    | sub ha hb iha ihb =>
      rcases iha with ⟨p, hp⟩ | hp
      · rcases ihb with ⟨q, hq⟩ | hq
        · exact Or.inl ⟨p - q, by simp [pyeval, hp, hq]⟩
        · exact Or.inr (by simp [pyeval, hp, hq])
      · exact Or.inr (by simp [pyeval, hp])
    | mul ha hb iha ihb =>
      rcases iha with ⟨p, hp⟩ | hp
      · rcases ihb with ⟨q, hq⟩ | hq
        · exact Or.inl ⟨p * q, by simp [pyeval, hp, hq]⟩
        · exact Or.inr (by simp [pyeval, hp, hq])
      · exact Or.inr (by simp [pyeval, hp])
    | div ha hb iha ihb =>
      rcases iha with ⟨p, hp⟩ | hp
      · rcases ihb with ⟨q, hq⟩ | hq
        · by_cases h0 : q = 0
          · exact Or.inr (by simp [pyeval, hp, hq, h0])
          · exact Or.inl ⟨p / q, by simp [pyeval, hp, hq, h0]⟩
        · exact Or.inr (by simp [pyeval, hp, hq])
      · exact Or.inr (by simp [pyeval, hp])
  · intro s hs
    simp [pyeval, hs]

/-- Witness for claim C2 (amended) on the expression 10 * cm over the
units table. -/
theorem claim_C2_amended_witness :
    ((∃ q, pyeval unitsTable (PyExpr.mul (.num 10) (.name "cm"))
        = .ok (.num q))
      ∨ pyeval unitsTable (PyExpr.mul (.num 10) (.name "cm"))
        = .error .zeroDivisionError) :=
  (claim_C2_amended unitsTable (PyExpr.mul (.num 10) (.name "cm"))
    (NumOnly.mul (NumOnly.num 10) (NumOnly.name "cm" (by decide)))).1

/-- Modelled from the spec: the wire region a path belongs to in the
array builder, round(pitchpos / pitch) rounded to the nearest integer
(Python round, half to even); the response arrays module is not among
the provided sources. -/
def regionOf (pitch pitchpos : ℚ) : ℤ :=
  pyround (pitchpos / pitch)

/-- Mirror image of a path under flip symmetry: pitch offset negated,
identical current trace. -/
def mirror_path (p : PathResponse) : PathResponse :=
  ⟨-p.pitchpos, p.current⟩

/-- Modelled from the spec: symmetry completion, step 2 of the array
builder (not among the provided sources).  When the source provides only
nonnegative pitch positions, prepend in mirrored order a flipped copy of
every strictly positive path; symmetrically when only nonpositive pitch
positions are provided; otherwise the paths are left alone. -/
def complete_paths (paths : List PathResponse) : List PathResponse :=
  if paths.all fun p => 0 ≤ p.pitchpos then
    ((paths.filter fun p => 0 < p.pitchpos).reverse.map mirror_path) ++ paths
  else if paths.all fun p => p.pitchpos ≤ 0 then
    paths ++ ((paths.filter fun p => p.pitchpos < 0).reverse.map mirror_path)
  else paths

/-- Modelled from the spec: pointwise arithmetic mean of the current
traces falling in one sub-position bin (step 3 of the array builder);
the row length is the common trace length. -/
def meanTraces : List (List ℚ) → List ℚ
  | [] => []
  | t :: ts => (List.range t.length).map fun k =>
      ((t :: ts).map fun u => u.getD k 0).sum / ((t :: ts).length : ℚ)

/-- Modelled from the spec: the sub-position bin of an offset o relative
to a region center, partitioning the interval from -pitch/2 to pitch/2
into 10 equal bins (bin 0 nearest -pitch/2). -/
def binIndex (pitch o : ℚ) : ℤ :=
  ⌊(o + pitch/2) / (pitch/10)⌋

/-- Modelled from the spec: the paths of wire region w of a plane, those
whose rounded region index equals w. -/
def region_paths (pitch : ℚ) (paths : List PathResponse) (w : ℤ) : List PathResponse :=
  paths.filter fun p => regionOf pitch p.pitchpos == w

/-- Modelled from the spec: the current traces of region w falling in
sub-position bin r, offsets taken relative to the region center. -/
def bin_traces (pitch : ℚ) (paths : List PathResponse) (w : ℤ) (r : ℕ) : List (List ℚ) :=
  ((region_paths pitch paths w).filter fun p =>
      binIndex pitch (p.pitchpos - (w : ℚ) * pitch) == (r : ℤ)).map
    PathResponse.current

/-- Modelled from the spec: the 10 pixel rows of one wire region, row r
the mean trace of sub-position bin r. -/
def pixelize_region (pitch : ℚ) (paths : List PathResponse) (w : ℤ) : List (List ℚ) :=
  (List.range 10).map fun r => meanTraces (bin_traces pitch paths w r)

/-- Modelled from the spec: the wire regions present in a plane, in
increasing order without repetition. -/
def plane_regions (pitch : ℚ) (paths : List PathResponse) : List ℤ :=
  List.insertionSort (· ≤ ·) (paths.map fun p => regionOf pitch p.pitchpos).dedup

/-- Modelled from the spec: the full pixel array of one plane, 10 rows
per wire region, regions in increasing order (step 4). -/
def plane_rows (pitch : ℚ) (paths : List PathResponse) : List (List ℚ) :=
  (plane_regions pitch paths).flatMap (pixelize_region pitch paths)

/-- Modelled from the spec: the physical pitch offset of the center of
sub-position bin r of wire region w. -/
def bin_center (pitch : ℚ) (w : ℤ) (r : ℕ) : ℚ :=
  (w : ℚ) * pitch - pitch/2 + ((r : ℚ) + 1/2) * (pitch/10)

/-- Modelled from the spec: the bin centers of a plane, one per pixel
row, in row order. -/
def plane_bincenters (pitch : ℚ) (paths : List PathResponse) : List ℚ :=
  (plane_regions pitch paths).flatMap fun w =>
    (List.range 10).map fun r => bin_center pitch w r

/-- Unit scale factors used by fr2npz, modelled from the spec after the
CLHEP-style units table (millimeter, nanosecond, eplus canonical): mV in
canonical voltage units. -/
def mV : ℚ := 1/1000000000

/-- Femtocoulomb in canonical charge units (eplus = 1, with the 2010
CODATA elementary charge 1.602176487e-19 coulomb). -/
def fC : ℚ := 10^13 / 1602176487

/-- Microsecond in canonical time units (nanosecond = 1). -/
def us : ℚ := 1000

/-- Modelled from the spec: the electronics impulse response waveform
(the response module is not among the provided sources).  The spec fixes
its interface only: n samples at the given period, deterministic in gain
and shaping time, peak amplitude corresponding to gain at the shaping
time; modelled as the peak-normalized triangular pulse peaking with
value gain at time equal to the shaping time. -/
def electronics_response (gain shaping period : ℚ) (n : ℕ) : List ℚ :=
  (List.range n).map fun i =>
    gain * max 0 (1 - |(i : ℚ) * period - shaping| / shaping)

/-- Modelled from the spec: discrete convolution of one pixel row with
the electronics response, truncated to the length of the row (step 5:
the output length equals the original sample count). -/
def convolve (eresp row : List ℚ) : List ℚ :=
  (List.range row.length).map fun n =>
    ((List.range (n+1)).map fun k => eresp.getD k 0 * row.getD (n - k) 0).sum

/-- Result record of the array builder: per-plane pixel arrays and bin
centers, scalar metadata, and the electronics response and its spectrum
when convolution was applied. -/
structure FrArrays where
  resp : List (List (List ℚ))
  bincenters : List (List ℚ)
  pitches : List ℚ
  locations : List ℚ
  origin : ℚ
  tstart : ℚ
  period : ℚ
  speed : ℚ
  gain : ℚ
  shaping : ℚ
  eresp : Option (List ℚ)
  espec : Option (List ℚ)
deriving Repr

/-- Modelled from the spec: the common sample count of a field response
(every path shares it). -/
def fr_nsamples (fr : FieldResponse) : ℕ :=
  (((fr.planes.headD default).paths.headD default).current).length

/-- Modelled from the spec: the unconvolved pixelization of a field
response, per plane: symmetry completion followed by pixel rows. -/
def fr_pixels (fr : FieldResponse) : List (List (List ℚ)) :=
  fr.planes.map fun pr => plane_rows pr.pitch (complete_paths pr.paths)

/-- Modelled from the spec: fr2arrays of the response arrays module (not
among the provided sources).  Pixelize every plane; when both gain and
shaping are nonzero convolve every row with the electronics response and
attach eresp and its spectrum, otherwise pass the rows through unchanged
and omit eresp and espec.  The value stored for espec abstracts the
discrete Fourier transform of eresp, which has no exact rational
representation; only its presence is relied upon below. -/
def fr2arrays (fr : FieldResponse) (gain shaping : ℚ) : FrArrays :=
  if gain = 0 ∨ shaping = 0 then
    { resp := fr_pixels fr,
      bincenters := fr.planes.map fun pr =>
        plane_bincenters pr.pitch (complete_paths pr.paths),
      pitches := fr.planes.map fun pr => pr.pitch,
      locations := fr.planes.map fun pr => pr.location,
      origin := fr.origin, tstart := fr.tstart, period := fr.period,
      speed := fr.speed, gain := gain, shaping := shaping,
      eresp := none, espec := none }
  else
    { resp := (fr_pixels fr).map fun rows =>
        rows.map (convolve (electronics_response gain shaping fr.period (fr_nsamples fr))),
      bincenters := fr.planes.map fun pr =>
        plane_bincenters pr.pitch (complete_paths pr.paths),
      pitches := fr.planes.map fun pr => pr.pitch,
      locations := fr.planes.map fun pr => pr.location,
      origin := fr.origin, tstart := fr.tstart, period := fr.period,
      speed := fr.speed, gain := gain, shaping := shaping,
      eresp := some (electronics_response gain shaping fr.period (fr_nsamples fr)),
      espec := some (electronics_response gain shaping fr.period (fr_nsamples fr)) }

/-- The fr2npz command minus its file input and output: the gain option
(mV/fC) and shaping option (us) are converted to canonical units and
passed to fr2arrays, as in the source. -/
def fr2npz (gain shaping : ℚ) (fr : FieldResponse) : FrArrays :=
  fr2arrays fr (gain * (mV / fC)) (shaping * us)

/-- Concrete example field response: one plane of pitch 5 with three
paths, used to exercise the theorems on explicit inputs. -/
def frEx : FieldResponse :=
  ⟨100, 0, 1, 2, (1, 0, 0), [⟨0, 0, 5, [⟨-8, [3]⟩, ⟨0, [7]⟩, ⟨8, [5]⟩]⟩]⟩

/-- Floor of the rational 8/5 is 1. -/
theorem floor_85 : ⌊(8 : ℚ) / 5⌋ = 1 := by
  rw [Int.floor_eq_iff]; norm_num

/-- Floor of the rational -8/5 is -2. -/
theorem floor_m85 : ⌊(-8 : ℚ) / 5⌋ = -2 := by
  rw [Int.floor_eq_iff]; norm_num

/-- Ceiling of the rational -8/5 is -1. -/
theorem ceil_m85 : ⌈(-8 : ℚ) / 5⌉ = -1 := by
  rw [Int.ceil_eq_iff]; norm_num

/-- The wire index frzero computes at pitchpos 8, pitch 5 is 1. -/
theorem frzero_wire_85 : frzero_wire 8 5 = 1 := by
  unfold frzero_wire pyint
  rw [if_neg (by norm_num)]
  exact floor_85

/-- The wire index frzero computes at pitchpos -8, pitch 5 is -1. -/
theorem frzero_wire_m85 : frzero_wire (-8) 5 = -1 := by
  unfold frzero_wire pyint
  rw [if_pos (by norm_num)]
  exact ceil_m85

/-- Rounding 8/5 to the nearest integer gives 2. -/
theorem pyround_85 : pyround ((8 : ℚ) / 5) = 2 := by
  unfold pyround
  rw [floor_85, if_neg (by norm_num), if_pos (by norm_num)]
  decide

/-- Rounding -8/5 to the nearest integer gives -2. -/
theorem pyround_m85 : pyround ((-8 : ℚ) / 5) = -2 := by
  unfold pyround
  rw [floor_m85, if_pos (by norm_num)]

/-- Claim C1 counterexample: the code assigns the wire-region index with
the Python builtin int, truncation toward zero, not with rounding to the
nearest integer.  At pitchpos 8 and pitch 5 the ratio is 1.6: the claim
demands region 2 but frzero computes wire = int(8/5) = 1, and at ratio
-1.6 it computes -1 instead of -2; consequently frzero with number = 1
keeps the path at pitchpos 8 although the claim would have it zeroed. -/
theorem claim_C1_counterexample :
    frzero_wire 8 5 = 1 ∧ pyround ((8 : ℚ) / 5) = 2 ∧
    frzero_wire 8 5 ≠ pyround ((8 : ℚ) / 5) ∧
    frzero_wire (-8) 5 = -1 ∧ pyround ((-8 : ℚ) / 5) = -2 ∧
    frzero_path 1 5 ⟨8, [5]⟩ = ⟨8, [5]⟩ := by
  refine ⟨frzero_wire_85, pyround_85,
          by rw [frzero_wire_85, pyround_85]; decide,
          frzero_wire_m85, pyround_m85, ?_⟩
  have hc : |frzero_wire (8 : ℚ) 5| ≤ 1 := by rw [frzero_wire_85]; decide
  simp only [frzero_path]
  rw [if_pos hc]

/-- Claim C1 (amended): the signed wire-region index the code assigns to
a path with pitchpos p in a plane of pitch h > 0 is int(p / h), the
truncation of p / h toward zero (floor for nonnegative p, ceiling for
nonpositive p); in particular a path with p / h = 1.6 belongs to region 1
and a path with p / h = -1.6 to region -1. -/
theorem claim_C1_amended (p h : ℚ) (hp : 0 < h) :
    (0 ≤ p → frzero_wire p h = ⌊p / h⌋) ∧
    (p ≤ 0 → frzero_wire p h = ⌈p / h⌉) ∧
    (p / h = (8 : ℚ) / 5 → frzero_wire p h = 1) ∧
    (p / h = (-8 : ℚ) / 5 → frzero_wire p h = -1) := by
  refine ⟨?_, ?_, ?_, ?_⟩
  · intro hp0
    have hnn : ¬ (p / h < 0) := not_lt.mpr (div_nonneg hp0 hp.le)
    simp [frzero_wire, pyint, hnn]
  · intro hp0
    rcases lt_or_eq_of_le (div_nonpos_of_nonpos_of_nonneg hp0 hp.le) with hlt | heq
    · simp [frzero_wire, pyint, hlt]
    · simp [frzero_wire, pyint, heq]
  · intro hq
    unfold frzero_wire pyint
    rw [hq, if_neg (by norm_num)]
    exact floor_85
  · intro hq
    unfold frzero_wire pyint
    rw [hq, if_pos (by norm_num)]
    exact ceil_m85

/-- Witness for claim C1 (amended) at pitchpos 8, pitch 5. -/
theorem claim_C1_amended_witness :
    (0 : ℚ) < 5 ∧ (0 : ℚ) ≤ 8 ∧ frzero_wire 8 5 = ⌊(8 : ℚ) / 5⌋ :=
  ⟨by norm_num, by norm_num, (claim_C1_amended 8 5 (by norm_num)).1 (by norm_num)⟩

/-- Claim C10: frzero with parameter number zeroes exactly the current
arrays of the paths whose wire index int(pitchpos / pitch) has absolute
value greater than number, and writes every other field of the field
response out unchanged: origin, tstart, period, speed, axis, each plane
metadata field, each pitchpos, and the current arrays of kept paths. -/
theorem claim_C10_frzero_effect (number : ℤ) (fr : FieldResponse) :
    (frzero number fr).origin = fr.origin ∧
    (frzero number fr).tstart = fr.tstart ∧
    (frzero number fr).period = fr.period ∧
    (frzero number fr).speed = fr.speed ∧
    (frzero number fr).axis = fr.axis ∧
    (frzero number fr).planes.length = fr.planes.length ∧
    ∀ i, i < fr.planes.length →
      ((frzero number fr).planes.getD i default).planeid
          = (fr.planes.getD i default).planeid ∧
      ((frzero number fr).planes.getD i default).location
          = (fr.planes.getD i default).location ∧
      ((frzero number fr).planes.getD i default).pitch
          = (fr.planes.getD i default).pitch ∧
      ((frzero number fr).planes.getD i default).paths.length
          = (fr.planes.getD i default).paths.length ∧
      ∀ j, j < (fr.planes.getD i default).paths.length →
        (((frzero number fr).planes.getD i default).paths.getD j default).pitchpos
            = ((fr.planes.getD i default).paths.getD j default).pitchpos ∧
        (if |frzero_wire ((fr.planes.getD i default).paths.getD j default).pitchpos
              (fr.planes.getD i default).pitch| ≤ number
         then (((frzero number fr).planes.getD i default).paths.getD j default).current
              = ((fr.planes.getD i default).paths.getD j default).current
         else (((frzero number fr).planes.getD i default).paths.getD j default).current
              = List.replicate
                  ((fr.planes.getD i default).paths.getD j default).current.length 0) := by
  refine ⟨rfl, rfl, rfl, rfl, rfl, by simp [frzero], ?_⟩
  intro i hi
  have hi2 : i < (frzero number fr).planes.length := by simpa [frzero] using hi
  rw [List.getD_eq_getElem _ _ hi2, List.getD_eq_getElem _ _ hi]
  have hpl : (frzero number fr).planes[i]
      = ⟨fr.planes[i].planeid, fr.planes[i].location, fr.planes[i].pitch,
         fr.planes[i].paths.map (frzero_path number fr.planes[i].pitch)⟩ := by
    simp [frzero]
  rw [hpl]
  refine ⟨rfl, rfl, rfl, by simp, ?_⟩
  intro j hj
  have hj2 : j < (fr.planes[i].paths.map
      (frzero_path number fr.planes[i].pitch)).length := by simpa using hj
  rw [List.getD_eq_getElem _ _ hj2, List.getD_eq_getElem _ _ hj, List.getElem_map]
  constructor
  · unfold frzero_path
    split <;> rfl
  · by_cases hcond : |frzero_wire fr.planes[i].paths[j].pitchpos fr.planes[i].pitch| ≤ number
    · rw [if_pos hcond]
      unfold frzero_path
      rw [if_pos hcond]
    · rw [if_neg hcond]
      unfold frzero_path
      rw [if_neg hcond]
      simp [List.map_const']

/-- Witness for claim C10 on the concrete field response frEx with
number 0: the path at index 2 (pitchpos 8, wire 1) is zeroed. -/
theorem claim_C10_frzero_effect_witness :
    (((frzero 0 frEx).planes.getD 0 default).paths.getD 2 default).pitchpos
        = ((frEx.planes.getD 0 default).paths.getD 2 default).pitchpos ∧
    (if |frzero_wire ((frEx.planes.getD 0 default).paths.getD 2 default).pitchpos
          (frEx.planes.getD 0 default).pitch| ≤ 0
     then (((frzero 0 frEx).planes.getD 0 default).paths.getD 2 default).current
          = ((frEx.planes.getD 0 default).paths.getD 2 default).current
     else (((frzero 0 frEx).planes.getD 0 default).paths.getD 2 default).current
          = List.replicate
              ((frEx.planes.getD 0 default).paths.getD 2 default).current.length 0) :=
  ((claim_C10_frzero_effect 0 frEx).2.2.2.2.2.2 0 (by decide)).2.2.2.2 2 (by decide)

/-- Claim C3: running the array builder with gain 0 or shaping time 0
yields output rows numerically identical to the unconvolved pixelization
of the same field response, and the result then carries no eresp and no
espec; the fr2npz unit conversions (mV/fC and us) preserve a zero
toggle, so the same holds through fr2npz. -/
theorem claim_C3_convolution_identity (fr : FieldResponse) (gain shaping : ℚ)
    (h : gain = 0 ∨ shaping = 0) :
    ((fr2arrays fr gain shaping).resp = fr_pixels fr ∧
     (fr2arrays fr gain shaping).eresp = none ∧
     (fr2arrays fr gain shaping).espec = none) ∧
    ((fr2npz gain shaping fr).resp = fr_pixels fr ∧
     (fr2npz gain shaping fr).eresp = none ∧
     (fr2npz gain shaping fr).espec = none) := by
  have h2 : gain * (mV / fC) = 0 ∨ shaping * us = 0 := by
    rcases h with h | h
    · exact Or.inl (by rw [h, zero_mul])
    · exact Or.inr (by rw [h, zero_mul])
  constructor
  · unfold fr2arrays
    rw [if_pos h]
    exact ⟨rfl, rfl, rfl⟩
  · unfold fr2npz fr2arrays
    rw [if_pos h2]
    exact ⟨rfl, rfl, rfl⟩

/-- Witness for claim C3 on the concrete field response frEx with gain 0
and shaping 2. -/
theorem claim_C3_convolution_identity_witness :
    (fr2arrays frEx 0 2).resp = fr_pixels frEx ∧
    (fr2arrays frEx 0 2).eresp = none ∧
    (fr2arrays frEx 0 2).espec = none :=
  (claim_C3_convolution_identity frEx 0 2 (Or.inl rfl)).1

/-- Modelled from the spec: canonical charge of the positron, the unit
in which a negative normalization interprets trace values. -/
def eplus : ℚ := 1

/-- Modelled from the spec: the rescaling the Garfield importer applies
to the loaded current traces according to its normalization parameter
(the garfield module is not among the provided sources): 0 means no
rescaling, negative means interpret values as elementary-charge counts
and convert to canonical charge, positive means multiply every trace by
the literal factor. -/
def garfield_normalize (normalization : ℚ) (traces : List (List ℚ)) :
    List (List ℚ) :=
  if normalization = 0 then traces
  else if normalization < 0 then traces.map fun t => t.map fun x => x * eplus
  else traces.map fun t => t.map fun x => x * normalization

/-- Claim C7: the normalization parameter of the Garfield importer acts
by fixed convention: 0 leaves every trace unrescaled, a negative value
converts elementary-charge counts to canonical charge, and a positive
value multiplies every trace by that literal scale factor. -/
theorem claim_C7_garfield_normalization (normalization : ℚ)
    (traces : List (List ℚ)) :
    (normalization = 0 → garfield_normalize normalization traces = traces) ∧
    (normalization < 0 → garfield_normalize normalization traces
        = traces.map fun t => t.map fun x => x * eplus) ∧
    (0 < normalization → garfield_normalize normalization traces
        = traces.map fun t => t.map fun x => x * normalization) := by
  refine ⟨?_, ?_, ?_⟩
  · intro h
    unfold garfield_normalize
    rw [if_pos h]
  · intro h
    unfold garfield_normalize
    rw [if_neg h.ne, if_pos h]
  · intro h
    unfold garfield_normalize
    rw [if_neg h.ne', if_neg (not_lt.mpr h.le)]

/-- Witness for claim C7 on a concrete trace set, one case per sign of
the normalization parameter. -/
theorem claim_C7_garfield_normalization_witness :
    garfield_normalize 0 [[(3 : ℚ), 4]] = [[(3 : ℚ), 4]] ∧
    garfield_normalize (-1) [[(3 : ℚ), 4]]
      = [[(3 : ℚ), 4]].map (fun t => t.map fun x => x * eplus) ∧
    garfield_normalize 2 [[(3 : ℚ), 4]]
      = [[(3 : ℚ), 4]].map (fun t => t.map fun x => x * 2) :=
  ⟨(claim_C7_garfield_normalization 0 [[3, 4]]).1 rfl,
   (claim_C7_garfield_normalization (-1) [[3, 4]]).2.1 (by norm_num),
   (claim_C7_garfield_normalization 2 [[3, 4]]).2.2 (by norm_num)⟩

/-- Length of a flatMap whose chunks all have the same length c. -/
theorem flatMap_length_const {α β : Type} (l : List α) (f : α → List β) (c : ℕ)
    (hc : ∀ x ∈ l, (f x).length = c) : (l.flatMap f).length = c * l.length := by
  induction l with
  | nil => simp
  | cons x xs ih =>
    simp only [List.flatMap_cons, List.length_append, List.length_cons]
    rw [hc x (by simp), ih fun y hy => hc y (by simp [hy])]
    ring

/-- Indexing into a flatMap whose chunks all have the same length c:
entry c * wi + r lives at offset r of chunk wi. -/
theorem flatMap_getD_chunk {α β : Type} (l : List α) (f : α → List β) (c : ℕ)
    (hc : ∀ x ∈ l, (f x).length = c) (wi r : ℕ) (hw : wi < l.length) (hr : r < c)
    (da : α) (d : β) :
    (l.flatMap f).getD (c * wi + r) d = (f (l.getD wi da)).getD r d := by
  induction l generalizing wi with
  | nil => simp at hw
  | cons x xs ih =>
    have hgx : (f x).length = c := hc x (by simp)
    cases wi with
    | zero =>
      rw [List.getD_cons_zero, List.flatMap_cons, Nat.mul_zero, Nat.zero_add,
          List.getD_eq_getElem?_getD, List.getElem?_append,
          if_pos (by rw [hgx]; omega), ← List.getD_eq_getElem?_getD]
    | succ wi =>
      rw [List.getD_cons_succ, List.flatMap_cons,
          List.getD_eq_getElem?_getD, List.getElem?_append,
          if_neg (by rw [hgx, Nat.mul_succ]; omega), hgx,
          show c * (wi + 1) + r - c = c * wi + r by rw [Nat.mul_succ]; omega,
          ← List.getD_eq_getElem?_getD]
      exact ih (fun y hy => hc y (by simp [hy])) wi (by simpa using hw)

/-- Every trace in a sub-position bin comes from a path of the plane. -/
theorem bin_traces_length (pitch : ℚ) (paths : List PathResponse) (w : ℤ) (r : ℕ)
    (nsamples : ℕ) (hsamp : ∀ p ∈ paths, p.current.length = nsamples) :
    ∀ t ∈ bin_traces pitch paths w r, t.length = nsamples := by
  intro t ht
  unfold bin_traces region_paths at ht
  obtain ⟨p, hp, rfl⟩ := List.mem_map.mp ht
  exact hsamp p (List.mem_of_mem_filter (List.mem_of_mem_filter hp))

/-- The arithmetic mean of a non-empty set of traces of common length n
is a trace of length n. -/
theorem meanTraces_length (ts : List (List ℚ)) (n : ℕ) (hne : ts ≠ [])
    (hn : ∀ t ∈ ts, t.length = n) : (meanTraces ts).length = n := by
  cases ts with
  | nil => exact absurd rfl hne
  | cons t ts => simp [meanTraces, hn t (by simp)]

/-- Claim C4: the pixel array of a plane has exactly 10 rows per wire
region and nsamples columns; row 10 * wi + r is the mean trace of
sub-position bin r of the wi-th wire region, and the bin centers carry
one physical pitch offset per row in the same order. -/
theorem claim_C4_plane_rows (pitch : ℚ) (paths : List PathResponse) (nsamples : ℕ)
    (hsamp : ∀ p ∈ paths, p.current.length = nsamples)
    (hbins : ∀ w ∈ plane_regions pitch paths, ∀ r, r < 10 →
        bin_traces pitch paths w r ≠ []) :
    (plane_rows pitch paths).length = 10 * (plane_regions pitch paths).length ∧
    (plane_bincenters pitch paths).length = (plane_rows pitch paths).length ∧
    ∀ wi r, wi < (plane_regions pitch paths).length → r < 10 →
      ((plane_rows pitch paths).getD (10 * wi + r) []
          = meanTraces
              (bin_traces pitch paths ((plane_regions pitch paths).getD wi 0) r)
        ∧ ((plane_rows pitch paths).getD (10 * wi + r) []).length = nsamples
        ∧ (plane_bincenters pitch paths).getD (10 * wi + r) 0
          = bin_center pitch ((plane_regions pitch paths).getD wi 0) r) := by
  have hchunk : ∀ w ∈ plane_regions pitch paths,
      (pixelize_region pitch paths w).length = 10 := by
    intro w _
    simp [pixelize_region]
  have hcent : ∀ w ∈ plane_regions pitch paths,
      ((List.range 10).map fun r => bin_center pitch w r).length = 10 := by
    intro w _
    simp
  have hlen : (plane_rows pitch paths).length
      = 10 * (plane_regions pitch paths).length :=
    flatMap_length_const _ _ 10 hchunk
  have hblen : (plane_bincenters pitch paths).length
      = 10 * (plane_regions pitch paths).length :=
    flatMap_length_const _ _ 10 hcent
  refine ⟨hlen, by rw [hblen, hlen], ?_⟩
  intro wi r hwi hr
  have hw_mem : (plane_regions pitch paths).getD wi 0 ∈ plane_regions pitch paths := by
    rw [List.getD_eq_getElem _ _ hwi]
    exact List.getElem_mem _
  have hrow : (plane_rows pitch paths).getD (10 * wi + r) []
      = meanTraces (bin_traces pitch paths ((plane_regions pitch paths).getD wi 0) r) := by
    unfold plane_rows
    rw [flatMap_getD_chunk _ _ 10 hchunk wi r hwi hr 0 []]
    unfold pixelize_region
    have hr10 : r < (List.range 10).length := by simpa using hr
    rw [List.getD_eq_getElem _ _ (by simpa using hr), List.getElem_map,
        List.getElem_range]
  refine ⟨hrow, ?_, ?_⟩
  · rw [hrow]
    exact meanTraces_length _ _ (hbins _ hw_mem r hr)
      (bin_traces_length pitch paths _ r nsamples hsamp)
  · unfold plane_bincenters
    rw [flatMap_getD_chunk _ _ 10 hcent wi r hwi hr 0 0]
    rw [List.getD_eq_getElem _ _ (by simpa using hr), List.getElem_map,
        List.getElem_range]


/-- Rounding an integer gives the integer back. -/
theorem pyround_intCast (z : ℤ) : pyround ((z : ℤ) : ℚ) = z := by
  unfold pyround
  rw [Int.floor_intCast, if_pos (by norm_num)]

/-- pyround is the floor or the floor plus one. -/
theorem pyround_bounds (q : ℚ) : pyround q = ⌊q⌋ ∨ pyround q = ⌊q⌋ + 1 := by
  unfold pyround
  split
  · exact Or.inl rfl
  · split
    · exact Or.inr rfl
    · split
      · exact Or.inl rfl
      · exact Or.inr rfl

/-- pyround below the half point is the floor. -/
theorem pyround_eq_floor (q : ℚ) (h : Int.fract q < 1/2) : pyround q = ⌊q⌋ := by
  unfold pyround
  rw [Int.self_sub_floor, if_pos h]

/-- pyround above the half point is the floor plus one. -/
theorem pyround_eq_floor_add_one (q : ℚ) (h : 1/2 < Int.fract q) :
    pyround q = ⌊q⌋ + 1 := by
  unfold pyround
  rw [Int.self_sub_floor, if_neg (by linarith), if_pos h]

/-- pyround at the half point goes to the even neighbour. -/
theorem pyround_eq_half (q : ℚ) (h : Int.fract q = 1/2) :
    pyround q = if 2 ∣ ⌊q⌋ then ⌊q⌋ else ⌊q⌋ + 1 := by
  unfold pyround
  rw [Int.self_sub_floor, h, if_neg (by norm_num), if_neg (by norm_num)]

/-- Half-to-even rounding is an odd function, as the Python builtin
round is: the mirrored offset lands in the mirrored region. -/
theorem pyround_neg (q : ℚ) : pyround (-q) = -pyround q := by
  by_cases h0 : Int.fract q = 0
  · have hq : q = ((⌊q⌋ : ℤ) : ℚ) := by
      have hs := Int.self_sub_floor q
      rw [h0] at hs
      linarith
    rw [hq, ← Int.cast_neg, pyround_intCast, pyround_intCast]
  · have ha0 : 0 < Int.fract q := lt_of_le_of_ne (Int.fract_nonneg q) (Ne.symm h0)
    have ha1 : Int.fract q < 1 := Int.fract_lt_one q
    have hfn : Int.fract (-q) = 1 - Int.fract q := Int.fract_neg h0
    have hfl : (⌊-q⌋ : ℚ) = -(⌊q⌋ : ℚ) - 1 := by
      have e1 : (-q) - Int.fract (-q) = ((⌊-q⌋ : ℤ) : ℚ) := Int.self_sub_fract (-q)
      have e2 : q - Int.fract q = ((⌊q⌋ : ℤ) : ℚ) := Int.self_sub_fract q
      rw [hfn] at e1
      push_cast at e1 e2 ⊢
      linarith
    have hflz : ⌊-q⌋ = -⌊q⌋ - 1 := by exact_mod_cast hfl
    rcases lt_trichotomy (Int.fract q) (1/2) with hlt | heq | hgt
    · rw [pyround_eq_floor_add_one (-q) (by rw [hfn]; linarith),
          pyround_eq_floor q hlt, hflz]
      omega
    · rw [pyround_eq_half (-q) (by rw [hfn, heq]; norm_num),
          pyround_eq_half q heq, hflz]
      by_cases hpar : 2 ∣ ⌊q⌋
      · rw [if_neg (by omega), if_pos hpar]
        omega
      · rw [if_pos (by omega), if_neg hpar]
        omega
    · rw [pyround_eq_floor (-q) (by rw [hfn]; linarith),
          pyround_eq_floor_add_one q hgt, hflz]
      omega

/-- Half-to-even rounding is monotone. -/
theorem pyround_mono {x y : ℚ} (hxy : x ≤ y) : pyround x ≤ pyround y := by
  rcases lt_or_eq_of_le (Int.floor_le_floor hxy) with hf | hf
  · rcases pyround_bounds x with h1 | h1 <;> rcases pyround_bounds y with h2 | h2 <;>
      omega
  · have hfr : Int.fract x ≤ Int.fract y := by
      rw [← Int.self_sub_floor, ← Int.self_sub_floor, hf]
      linarith
    rcases lt_trichotomy (Int.fract x) (1/2) with h1 | h1 | h1
    · rw [pyround_eq_floor x h1, hf]
      rcases pyround_bounds y with h2 | h2 <;> omega
    · rcases lt_or_eq_of_le (le_trans (le_of_eq h1.symm) hfr) with h2 | h2
      · rw [pyround_eq_half x h1, pyround_eq_floor_add_one y h2, hf]
        split <;> omega
      · rw [pyround_eq_half x h1, pyround_eq_half y h2.symm, hf]
    · rw [pyround_eq_floor_add_one x h1,
          pyround_eq_floor_add_one y (by linarith), hf]

/-- The region index is odd under mirroring. -/
theorem regionOf_neg (pitch x : ℚ) : regionOf pitch (-x) = -regionOf pitch x := by
  unfold regionOf
  rw [neg_div, pyround_neg]

/-- The region index is monotone in the pitch position for a positive
pitch. -/
theorem regionOf_mono (pitch : ℚ) (hp : 0 < pitch) {x y : ℚ} (h : x ≤ y) :
    regionOf pitch x ≤ regionOf pitch y :=
  pyround_mono ((div_le_div_iff_of_pos_right hp).mpr h)

/-- Ten paths covering the ten sub-position bins of wire region 0 at
pitch 10: pitch positions r - 5 for r from 0 to 9, each carrying a
one-sample trace. -/
def pathsEx : List PathResponse :=
  [⟨-5, [1]⟩, ⟨-4, [1]⟩, ⟨-3, [1]⟩, ⟨-2, [1]⟩, ⟨-1, [1]⟩,
   ⟨0, [1]⟩, ⟨1, [1]⟩, ⟨2, [1]⟩, ⟨3, [1]⟩, ⟨4, [1]⟩]

/-- Rounding half to even sends the whole interval from -1/2 inclusive
to 1/2 exclusive to zero. -/
theorem pyround_zero_of_between (q : ℚ) (h1 : -(1/2) ≤ q) (h2 : q < 1/2) :
    pyround q = 0 := by
  by_cases h0 : 0 ≤ q
  · have hfl : ⌊q⌋ = 0 := by
      rw [Int.floor_eq_iff]
      exact ⟨by push_cast; linarith, by push_cast; linarith⟩
    have hfr : Int.fract q < 1/2 := by
      rw [Int.fract, hfl]
      push_cast
      linarith
    rw [pyround_eq_floor q hfr, hfl]
  · have hfl : ⌊q⌋ = -1 := by
      rw [Int.floor_eq_iff]
      exact ⟨by push_cast; linarith, by push_cast; linarith⟩
    rcases lt_or_eq_of_le h1 with hlt | heq
    · have hfr : 1/2 < Int.fract q := by
        rw [Int.fract, hfl]
        push_cast
        linarith
      rw [pyround_eq_floor_add_one q hfr, hfl]
      decide
    · have hfr : Int.fract q = 1/2 := by
        rw [Int.fract, hfl]
        push_cast
        linarith
      rw [pyround_eq_half q hfr, hfl, if_neg (by decide)]
      decide

/-- Every pitch position in the central wire cell of a plane of pitch 10
belongs to region 0. -/
theorem regionOf_ten (x : ℚ) (h1 : -5 ≤ x) (h2 : x < 5) : regionOf 10 x = 0 := by
  unfold regionOf
  apply pyround_zero_of_between
  · linarith
  · linarith

/-- The bin index at pitch 10 of an integer offset z is z + 5. -/
theorem binIndex_ten (z : ℤ) : binIndex 10 ((z : ℤ) : ℚ) = z + 5 := by
  unfold binIndex
  rw [show (((z : ℤ) : ℚ) + 10/2) / (10/10) = (((z + 5 : ℤ) : ℤ) : ℚ) by
        push_cast; ring,
      Int.floor_intCast]

/-- The bin index of the pitchpos values of pathsEx relative to region
center 0. -/
theorem binIndex_shift (v : ℚ) (z : ℤ) (hv : v = ((z : ℤ) : ℚ)) :
    binIndex 10 (v - ((0 : ℤ) : ℚ) * 10) = z + 5 := by
  rw [hv, show (((z : ℤ) : ℚ) - ((0 : ℤ) : ℚ) * 10) = ((z : ℤ) : ℚ) by
        push_cast; ring,
      binIndex_ten]

/-- A sub-position bin containing a path of the plane is non-empty. -/
theorem bin_traces_mem_of (pitch : ℚ) (paths : List PathResponse) (w : ℤ)
    (r : ℕ) (v : ℚ) (cur : List ℚ)
    (hp : (⟨v, cur⟩ : PathResponse) ∈ paths)
    (h1 : regionOf pitch v = w)
    (h2 : binIndex pitch (v - (w : ℚ) * pitch) = (r : ℤ)) :
    bin_traces pitch paths w r ≠ [] := by
  have hmem : (PathResponse.mk v cur).current ∈ bin_traces pitch paths w r := by
    unfold bin_traces region_paths
    exact List.mem_map_of_mem _ (List.mem_filter.mpr
      ⟨List.mem_filter.mpr ⟨hp, beq_iff_eq.mpr h1⟩, beq_iff_eq.mpr h2⟩)
  exact List.ne_nil_of_mem hmem

/-- The example plane has region 0 only. -/
theorem plane_regions_pathsEx : plane_regions 10 pathsEx = [0] := by
  unfold plane_regions
  have hmap : pathsEx.map (fun p => regionOf 10 p.pitchpos)
      = [0, 0, 0, 0, 0, 0, 0, 0, 0, 0] := by
    simp only [pathsEx, List.map_cons, List.map_nil]
    rw [regionOf_ten (-5) (by norm_num) (by norm_num),
        regionOf_ten (-4) (by norm_num) (by norm_num),
        regionOf_ten (-3) (by norm_num) (by norm_num),
        regionOf_ten (-2) (by norm_num) (by norm_num),
        regionOf_ten (-1) (by norm_num) (by norm_num),
        regionOf_ten 0 (by norm_num) (by norm_num),
        regionOf_ten 1 (by norm_num) (by norm_num),
        regionOf_ten 2 (by norm_num) (by norm_num),
        regionOf_ten 3 (by norm_num) (by norm_num),
        regionOf_ten 4 (by norm_num) (by norm_num)]
  rw [hmap]
  decide

/-- Every sub-position bin of the example plane is populated. -/
theorem bins_pathsEx : ∀ w ∈ plane_regions 10 pathsEx, ∀ r, r < 10 →
    bin_traces 10 pathsEx w r ≠ [] := by
  intro w hw r hr
  rw [plane_regions_pathsEx] at hw
  have hw0 : w = 0 := by simpa using hw
  subst hw0
  interval_cases r
  · exact bin_traces_mem_of 10 pathsEx 0 0 (-5) [1] (by simp [pathsEx])
      (regionOf_ten (-5) (by norm_num) (by norm_num))
      (by rw [binIndex_shift (-5) (-5) (by norm_num)]; decide)
  · exact bin_traces_mem_of 10 pathsEx 0 1 (-4) [1] (by simp [pathsEx])
      (regionOf_ten (-4) (by norm_num) (by norm_num))
      (by rw [binIndex_shift (-4) (-4) (by norm_num)]; decide)
  · exact bin_traces_mem_of 10 pathsEx 0 2 (-3) [1] (by simp [pathsEx])
      (regionOf_ten (-3) (by norm_num) (by norm_num))
      (by rw [binIndex_shift (-3) (-3) (by norm_num)]; decide)
  · exact bin_traces_mem_of 10 pathsEx 0 3 (-2) [1] (by simp [pathsEx])
      (regionOf_ten (-2) (by norm_num) (by norm_num))
      (by rw [binIndex_shift (-2) (-2) (by norm_num)]; decide)
  · exact bin_traces_mem_of 10 pathsEx 0 4 (-1) [1] (by simp [pathsEx])
      (regionOf_ten (-1) (by norm_num) (by norm_num))
      (by rw [binIndex_shift (-1) (-1) (by norm_num)]; decide)
  · exact bin_traces_mem_of 10 pathsEx 0 5 0 [1] (by simp [pathsEx])
      (regionOf_ten 0 (by norm_num) (by norm_num))
      (by rw [binIndex_shift 0 0 (by norm_num)]; decide)
  · exact bin_traces_mem_of 10 pathsEx 0 6 1 [1] (by simp [pathsEx])
      (regionOf_ten 1 (by norm_num) (by norm_num))
      (by rw [binIndex_shift 1 1 (by norm_num)]; decide)
  · exact bin_traces_mem_of 10 pathsEx 0 7 2 [1] (by simp [pathsEx])
      (regionOf_ten 2 (by norm_num) (by norm_num))
      (by rw [binIndex_shift 2 2 (by norm_num)]; decide)
  · exact bin_traces_mem_of 10 pathsEx 0 8 3 [1] (by simp [pathsEx])
      (regionOf_ten 3 (by norm_num) (by norm_num))
      (by rw [binIndex_shift 3 3 (by norm_num)]; decide)
  · exact bin_traces_mem_of 10 pathsEx 0 9 4 [1] (by simp [pathsEx])
      (regionOf_ten 4 (by norm_num) (by norm_num))
      (by rw [binIndex_shift 4 4 (by norm_num)]; decide)

/-- Witness for claim C4 on the populated example plane: one wire
region, ten rows of one sample each, and row 3 is the mean trace of bin
3 of region 0 with the matching bin center. -/
theorem claim_C4_plane_rows_witness :
    (plane_rows 10 pathsEx).length = 10 * (plane_regions 10 pathsEx).length ∧
    (plane_bincenters 10 pathsEx).length = (plane_rows 10 pathsEx).length ∧
    ((plane_rows 10 pathsEx).getD (10 * 0 + 3) []
        = meanTraces (bin_traces 10 pathsEx
            ((plane_regions 10 pathsEx).getD 0 0) 3)
      ∧ ((plane_rows 10 pathsEx).getD (10 * 0 + 3) []).length = 1
      ∧ (plane_bincenters 10 pathsEx).getD (10 * 0 + 3) 0
        = bin_center 10 ((plane_regions 10 pathsEx).getD 0 0) 3) :=
  ⟨(claim_C4_plane_rows 10 pathsEx 1
      (fun p hp => by fin_cases hp <;> rfl) bins_pathsEx).1,
   (claim_C4_plane_rows 10 pathsEx 1
      (fun p hp => by fin_cases hp <;> rfl) bins_pathsEx).2.1,
   (claim_C4_plane_rows 10 pathsEx 1
      (fun p hp => by fin_cases hp <;> rfl) bins_pathsEx).2.2 0 3
     (by rw [plane_regions_pathsEx]; decide) (by decide)⟩

/-- Symmetry completion for a plane providing only nonnegative pitch
positions: the mirrored copies are prepended before the source paths and
the completed sequence keeps its ordering. -/
theorem complete_paths_nonneg_half (pitch : ℚ) (paths : List PathResponse)
    (hpitch : 0 < pitch)
    (hpos : ∀ p ∈ paths, 0 ≤ p.pitchpos)
    (hsorted : List.Sorted (· ≤ ·) (paths.map PathResponse.pitchpos)) :
    (∀ p ∈ paths, ∃ q ∈ complete_paths paths,
        q.pitchpos = -p.pitchpos ∧ q.current = p.current ∧
        regionOf pitch q.pitchpos = -regionOf pitch p.pitchpos) ∧
    (∀ p ∈ paths, p ∈ complete_paths paths) ∧
    List.Sorted (· ≤ ·) ((complete_paths paths).map PathResponse.pitchpos) ∧
    List.Sorted (· ≤ ·) ((complete_paths paths).map
      fun p => regionOf pitch p.pitchpos) := by
  have hall : (paths.all fun p => 0 ≤ p.pitchpos) = true := by
    rw [List.all_eq_true]
    intro p hp
    exact decide_eq_true (hpos p hp)
  have hcp : complete_paths paths
      = ((paths.filter fun p => 0 < p.pitchpos).reverse.map mirror_path)
          ++ paths := by
    unfold complete_paths
    rw [if_pos hall]
  have hzero : regionOf pitch 0 = 0 := by
    unfold regionOf
    rw [zero_div, show ((0 : ℚ)) = ((0 : ℤ) : ℚ) by norm_num, pyround_intCast]
  have hsorted2 : List.Sorted (· ≤ ·)
      ((complete_paths paths).map PathResponse.pitchpos) := by
    rw [hcp, List.map_append]
    have hmm : ((paths.filter fun p => 0 < p.pitchpos).reverse.map
          mirror_path).map PathResponse.pitchpos
        = ((paths.filter fun p => 0 < p.pitchpos).map
            fun p => -p.pitchpos).reverse := by
      rw [List.map_map, List.map_reverse]
      rfl
    show List.Pairwise _ _
    refine List.pairwise_append.mpr ⟨?_, hsorted, ?_⟩
    · rw [hmm, List.pairwise_reverse, List.pairwise_map]
      have hpw : List.Pairwise
          (fun a b : PathResponse => a.pitchpos ≤ b.pitchpos) paths :=
        List.pairwise_map.mp hsorted
      exact (hpw.filter _).imp fun hab => neg_le_neg hab
    · intro a ha b hb
      rcases List.mem_map.mp ha with ⟨q, hq, rfl⟩
      rcases List.mem_map.mp hq with ⟨p, hpmem, rfl⟩
      have hpfil := List.mem_reverse.mp hpmem
      have hp_pos : 0 < p.pitchpos := by
        have := (List.mem_filter.mp hpfil).2
        rwa [decide_eq_true_eq] at this
      rcases List.mem_map.mp hb with ⟨p2, hp2, rfl⟩
      have hb0 : 0 ≤ p2.pitchpos := hpos p2 hp2
      show (mirror_path p).pitchpos ≤ p2.pitchpos
      unfold mirror_path
      simp only
      linarith
  refine ⟨?_, ?_, hsorted2, ?_⟩
  · intro p hp
    by_cases hppos : 0 < p.pitchpos
    · refine ⟨mirror_path p, ?_, rfl, rfl, regionOf_neg pitch p.pitchpos⟩
      rw [hcp]
      refine List.mem_append_left _ (List.mem_map_of_mem _ ?_)
      exact List.mem_reverse.mpr
        (List.mem_filter.mpr ⟨hp, decide_eq_true hppos⟩)
    · have h0 : p.pitchpos = 0 := le_antisymm (not_lt.mp hppos) (hpos p hp)
      refine ⟨p, ?_, ?_, rfl, ?_⟩
      · rw [hcp]
        exact List.mem_append_right _ hp
      · rw [h0, neg_zero]
      · rw [h0, hzero, neg_zero]
  · intro p hp
    rw [hcp]
    exact List.mem_append_right _ hp
  · have h2 := List.pairwise_map.mp hsorted2
    show List.Pairwise _ _
    rw [List.pairwise_map]
    exact h2.imp fun hab => regionOf_mono pitch hpitch hab

/-- Symmetry completion for a plane providing only nonpositive pitch
positions (and not only zero offsets, which the first branch handles):
the mirrored copies are appended after the source paths and the
completed sequence keeps its ordering. -/
theorem complete_paths_nonpos_half (pitch : ℚ) (paths : List PathResponse)
    (hpitch : 0 < pitch)
    (hneg : ∀ p ∈ paths, p.pitchpos ≤ 0)
    (hnotall : ¬ (paths.all fun p => 0 ≤ p.pitchpos) = true)
    (hsorted : List.Sorted (· ≤ ·) (paths.map PathResponse.pitchpos)) :
    (∀ p ∈ paths, ∃ q ∈ complete_paths paths,
        q.pitchpos = -p.pitchpos ∧ q.current = p.current ∧
        regionOf pitch q.pitchpos = -regionOf pitch p.pitchpos) ∧
    (∀ p ∈ paths, p ∈ complete_paths paths) ∧
    List.Sorted (· ≤ ·) ((complete_paths paths).map PathResponse.pitchpos) ∧
    List.Sorted (· ≤ ·) ((complete_paths paths).map
      fun p => regionOf pitch p.pitchpos) := by
  have hall2 : (paths.all fun p => p.pitchpos ≤ 0) = true := by
    rw [List.all_eq_true]
    intro p hp
    exact decide_eq_true (hneg p hp)
  have hcp : complete_paths paths
      = paths
          ++ ((paths.filter fun p => p.pitchpos < 0).reverse.map mirror_path) := by
    unfold complete_paths
    rw [if_neg hnotall, if_pos hall2]
  have hzero : regionOf pitch 0 = 0 := by
    unfold regionOf
    rw [zero_div, show ((0 : ℚ)) = ((0 : ℤ) : ℚ) by norm_num, pyround_intCast]
  have hsorted2 : List.Sorted (· ≤ ·)
      ((complete_paths paths).map PathResponse.pitchpos) := by
    rw [hcp, List.map_append]
    have hmm : ((paths.filter fun p => p.pitchpos < 0).reverse.map
          mirror_path).map PathResponse.pitchpos
        = ((paths.filter fun p => p.pitchpos < 0).map
            fun p => -p.pitchpos).reverse := by
      rw [List.map_map, List.map_reverse]
      rfl
    show List.Pairwise _ _
    refine List.pairwise_append.mpr ⟨hsorted, ?_, ?_⟩
    · rw [hmm, List.pairwise_reverse, List.pairwise_map]
      have hpw : List.Pairwise
          (fun a b : PathResponse => a.pitchpos ≤ b.pitchpos) paths :=
        List.pairwise_map.mp hsorted
      exact (hpw.filter _).imp fun hab => neg_le_neg hab
    · intro a ha b hb
      rcases List.mem_map.mp ha with ⟨p2, hp2, rfl⟩
      rcases List.mem_map.mp hb with ⟨q, hq, rfl⟩
      rcases List.mem_map.mp hq with ⟨p, hpmem, rfl⟩
      have hpfil := List.mem_reverse.mp hpmem
      have hp_neg : p.pitchpos < 0 := by
        have := (List.mem_filter.mp hpfil).2
        rwa [decide_eq_true_eq] at this
      have ha0 : p2.pitchpos ≤ 0 := hneg p2 hp2
      show p2.pitchpos ≤ (mirror_path p).pitchpos
      unfold mirror_path
      simp only
      linarith
  refine ⟨?_, ?_, hsorted2, ?_⟩
  · intro p hp
    by_cases hpneg : p.pitchpos < 0
    · refine ⟨mirror_path p, ?_, rfl, rfl, regionOf_neg pitch p.pitchpos⟩
      rw [hcp]
      refine List.mem_append_right _ (List.mem_map_of_mem _ ?_)
      exact List.mem_reverse.mpr
        (List.mem_filter.mpr ⟨hp, decide_eq_true hpneg⟩)
    · have h0 : p.pitchpos = 0 := le_antisymm (hneg p hp) (not_lt.mp hpneg)
      refine ⟨p, ?_, ?_, rfl, ?_⟩
      · rw [hcp]
        exact List.mem_append_left _ hp
      · rw [h0, neg_zero]
      · rw [h0, hzero, neg_zero]
  · intro p hp
    rw [hcp]
    exact List.mem_append_left _ hp
  · have h2 := List.pairwise_map.mp hsorted2
    show List.Pairwise _ _
    rw [List.pairwise_map]
    exact h2.imp fun hab => regionOf_mono pitch hpitch hab

/-- Claim C6: for a plane whose source paths carry only nonnegative or
only nonpositive pitch positions (in nondecreasing order, the plane
invariant), symmetry completion synthesizes the missing mirror half:
every source path has a counterpart at the negated offset, in the
mirrored region, with an identical current trace; the source paths are
all kept; and the completed sequence is still ordered by pitch position
and hence by nondecreasing region index. -/
theorem claim_C6_symmetry_completion (pitch : ℚ) (paths : List PathResponse)
    (hpitch : 0 < pitch)
    (hhalf : (∀ p ∈ paths, 0 ≤ p.pitchpos) ∨ (∀ p ∈ paths, p.pitchpos ≤ 0))
    (hsorted : List.Sorted (· ≤ ·) (paths.map PathResponse.pitchpos)) :
    (∀ p ∈ paths, ∃ q ∈ complete_paths paths,
        q.pitchpos = -p.pitchpos ∧ q.current = p.current ∧
        regionOf pitch q.pitchpos = -regionOf pitch p.pitchpos) ∧
    (∀ p ∈ paths, p ∈ complete_paths paths) ∧
    List.Sorted (· ≤ ·) ((complete_paths paths).map PathResponse.pitchpos) ∧
    List.Sorted (· ≤ ·) ((complete_paths paths).map
      fun p => regionOf pitch p.pitchpos) := by
  rcases hhalf with hpos | hneg
  · exact complete_paths_nonneg_half pitch paths hpitch hpos hsorted
  · by_cases hall : (paths.all fun p => 0 ≤ p.pitchpos) = true
    · have hpos : ∀ p ∈ paths, 0 ≤ p.pitchpos := by
        intro p hp
        have := List.all_eq_true.mp hall p hp
        rwa [decide_eq_true_eq] at this
      exact complete_paths_nonneg_half pitch paths hpitch hpos hsorted
    · exact complete_paths_nonpos_half pitch paths hpitch hneg hall hsorted

/-- Witness for claim C6 on two concrete planes of pitch 5: one
providing only nonnegative pitch positions (paths at 0 and 8), one
providing only nonpositive pitch positions (paths at -8 and 0); each
completion holds a mirror of the off-center path, and the completion of
the nonpositive plane remains sorted by pitch position. -/
theorem claim_C6_symmetry_completion_witness :
    (∃ q ∈ complete_paths [⟨0, [1]⟩, ⟨8, [5]⟩],
      q.pitchpos = -(PathResponse.mk 8 [5]).pitchpos ∧
      q.current = (PathResponse.mk 8 [5]).current ∧
      regionOf 5 q.pitchpos = -regionOf 5 (PathResponse.mk 8 [5]).pitchpos) ∧
    (∃ q ∈ complete_paths [⟨-8, [5]⟩, ⟨0, [1]⟩],
      q.pitchpos = -(PathResponse.mk (-8) [5]).pitchpos ∧
      q.current = (PathResponse.mk (-8) [5]).current ∧
      regionOf 5 q.pitchpos
        = -regionOf 5 (PathResponse.mk (-8) [5]).pitchpos) ∧
    List.Sorted (· ≤ ·) ((complete_paths [⟨-8, [5]⟩, ⟨0, [1]⟩]).map
      PathResponse.pitchpos) :=
  ⟨(claim_C6_symmetry_completion 5 [⟨0, [1]⟩, ⟨8, [5]⟩] (by norm_num)
      (Or.inl fun p hp => by fin_cases hp <;> norm_num)
      (by norm_num [List.sorted_cons])).1
    ⟨8, [5]⟩ (by norm_num),
   (claim_C6_symmetry_completion 5 [⟨-8, [5]⟩, ⟨0, [1]⟩] (by norm_num)
      (Or.inr fun p hp => by fin_cases hp <;> norm_num)
      (by norm_num [List.sorted_cons])).1
    ⟨-8, [5]⟩ (by norm_num),
   (claim_C6_symmetry_completion 5 [⟨-8, [5]⟩, ⟨0, [1]⟩] (by norm_num)
      (Or.inr fun p hp => by fin_cases hp <;> norm_num)
      (by norm_num [List.sorted_cons])).2.2.1⟩

/-- The precision truncation channel_responses applies to each sample
before writing, float of the percent .6g format: keep six significant
decimal digits; modelled over the rationals as rounding at the sixth
significant digit. -/
def sig6 (x : ℚ) : ℚ :=
  if x = 0 then 0
  else ((round (x * (10:ℚ) ^ ((5:ℤ) - Int.log 10 |x|)) : ℤ) : ℚ)
        * (10:ℚ) ^ (Int.log 10 |x| - (5:ℤ))

/-- Record written by the channel_responses command: tick, t0, and per
channel the channel number paired with its truncated samples. -/
structure ChannelResponses where
  tick : ℚ
  t0 : ℚ
  channels : List (ℤ × List ℚ)
deriving Repr

/-- The channel_responses command minus its ROOT input and file output:
the sample array is scaled by scale, t0 and t1 are the first two time
edges scaled by tscale and tick is their difference, and each channel
row is emitted with its samples reduced to six significant digits. -/
def channel_responses (tscale scale : ℚ) (arr : List (List ℚ))
    (tedges : List ℚ) : ChannelResponses :=
  ⟨tscale * tedges.getD 1 0 - tscale * tedges.getD 0 0,
   tscale * tedges.getD 0 0,
   (List.range arr.length).map fun ch : ℕ =>
     ((ch : ℤ), (arr.getD ch []).map fun x => sig6 (x * scale))⟩

/-- Modelled from the spec: persistence dump of a field response (the
persist module is not among the provided sources): scalar fields and
pitch positions are written exactly, current samples with the six
significant digit truncation of the declared precision contract. -/
def dump_fr (fr : FieldResponse) : FieldResponse :=
  { fr with planes := fr.planes.map fun pr =>
      { pr with paths := pr.paths.map fun p =>
          ⟨p.pitchpos, p.current.map sig6⟩ } }

/-- Modelled from the spec: persistence load reconstructs the dumped
entity graph exactly. -/
def load_fr (fr : FieldResponse) : FieldResponse := fr

/-- The six significant digit truncation moves a value by at most half a
unit in the sixth significant place, hence by at most one part in
200000 of the value. -/
theorem sig6_rel_error (x : ℚ) : |sig6 x - x| ≤ |x| / 200000 := by
  by_cases h0 : x = 0
  · rw [h0]
    simp [sig6]
  · unfold sig6
    rw [if_neg h0]
    have h10 : (10:ℚ) ≠ 0 := by norm_num
    set e := Int.log 10 |x| with he
    set y := x * (10:ℚ) ^ ((5:ℤ) - e) with hy
    set c := (10:ℚ) ^ (e - (5:ℤ)) with hc
    have hcpos : (0:ℚ) < c := zpow_pos (by norm_num) _
    have hxc : y * c = x := by
      rw [hy, hc, mul_assoc, ← zpow_add₀ h10,
          show (5:ℤ) - e + (e - 5) = 0 by ring, zpow_zero, mul_one]
    have habs : |((round y : ℤ) : ℚ) * c - x| = |((round y : ℤ) : ℚ) - y| * c := by
      rw [← hxc, ← sub_mul, abs_mul, abs_of_pos hcpos]
    have hround : |((round y : ℤ) : ℚ) - y| ≤ 1/2 := by
      rw [abs_sub_comm]
      exact abs_sub_round y
    have h5 : (10:ℚ) ^ (5:ℤ) = 100000 := by norm_num
    have hlog : (10:ℚ) ^ e ≤ |x| :=
      Int.zpow_log_le_self (by norm_num) (abs_pos.mpr h0)
    have hcx : c ≤ |x| / 100000 := by
      rw [hc, zpow_sub₀ h10, h5]
      exact (div_le_div_iff_of_pos_right (by norm_num)).mpr hlog
    calc |((round y : ℤ) : ℚ) * c - x| = |((round y : ℤ) : ℚ) - y| * c := habs
      _ ≤ (1/2) * c := mul_le_mul_of_nonneg_right hround hcpos.le
      _ ≤ (1/2) * (|x| / 100000) := mul_le_mul_of_nonneg_left hcx (by norm_num)
      _ = |x| / 200000 := by ring

/-- Claim C5: every sample written by channel_responses is the scaled
input sample truncated to six significant digits; the truncation moves a
value by at most half a unit in the sixth significant place; and
reloading a dumped field response reproduces every scalar field exactly
and every current sample as the six digit truncation of the original. -/
theorem claim_C5_serialization (tscale scale : ℚ) (arr : List (List ℚ))
    (tedges : List ℚ) (fr : FieldResponse) :
    ((channel_responses tscale scale arr tedges).tick
        = tscale * tedges.getD 1 0 - tscale * tedges.getD 0 0) ∧
    ((channel_responses tscale scale arr tedges).t0
        = tscale * tedges.getD 0 0) ∧
    (∀ ch, ch < arr.length →
      (channel_responses tscale scale arr tedges).channels.getD ch (0, [])
        = ((ch : ℤ), (arr.getD ch []).map fun x => sig6 (x * scale))) ∧
    (∀ x : ℚ, |sig6 x - x| ≤ |x| / 200000) ∧
    ((load_fr (dump_fr fr)).origin = fr.origin ∧
     (load_fr (dump_fr fr)).tstart = fr.tstart ∧
     (load_fr (dump_fr fr)).period = fr.period ∧
     (load_fr (dump_fr fr)).speed = fr.speed ∧
     (load_fr (dump_fr fr)).axis = fr.axis ∧
     (load_fr (dump_fr fr)).planes.length = fr.planes.length ∧
     ∀ i, i < fr.planes.length →
       ((load_fr (dump_fr fr)).planes.getD i default).planeid
           = (fr.planes.getD i default).planeid ∧
       ((load_fr (dump_fr fr)).planes.getD i default).location
           = (fr.planes.getD i default).location ∧
       ((load_fr (dump_fr fr)).planes.getD i default).pitch
           = (fr.planes.getD i default).pitch ∧
       ((load_fr (dump_fr fr)).planes.getD i default).paths.length
           = (fr.planes.getD i default).paths.length ∧
       ∀ j, j < (fr.planes.getD i default).paths.length →
         (((load_fr (dump_fr fr)).planes.getD i default).paths.getD
             j default).pitchpos
             = ((fr.planes.getD i default).paths.getD j default).pitchpos ∧
         (((load_fr (dump_fr fr)).planes.getD i default).paths.getD
             j default).current
             = ((fr.planes.getD i default).paths.getD
                 j default).current.map sig6) := by
  refine ⟨rfl, rfl, ?_, sig6_rel_error, ?_⟩
  · intro ch hch
    have hch2 : ch < ((List.range arr.length).map fun ch : ℕ =>
        ((ch : ℤ), (arr.getD ch []).map fun x => sig6 (x * scale))).length := by
      simpa using hch
    rw [show (channel_responses tscale scale arr tedges).channels
          = (List.range arr.length).map fun ch : ℕ =>
              ((ch : ℤ), (arr.getD ch []).map fun x => sig6 (x * scale)) from rfl,
        List.getD_eq_getElem _ _ hch2, List.getElem_map, List.getElem_range]
  · refine ⟨rfl, rfl, rfl, rfl, rfl, by simp [load_fr, dump_fr], ?_⟩
    intro i hi
    have hi2 : i < (load_fr (dump_fr fr)).planes.length := by
      simpa [load_fr, dump_fr] using hi
    rw [List.getD_eq_getElem _ _ hi2, List.getD_eq_getElem _ _ hi]
    have hpl : (load_fr (dump_fr fr)).planes[i]
        = ⟨fr.planes[i].planeid, fr.planes[i].location, fr.planes[i].pitch,
           fr.planes[i].paths.map fun p => ⟨p.pitchpos, p.current.map sig6⟩⟩ := by
      simp [load_fr, dump_fr]
    rw [hpl]
    refine ⟨rfl, rfl, rfl, by simp, ?_⟩
    intro j hj
    have hj2 : j < ((fr.planes[i].paths.map fun p : PathResponse =>
        (⟨p.pitchpos, p.current.map sig6⟩ : PathResponse))).length := by
      simpa using hj
    rw [List.getD_eq_getElem _ _ hj2, List.getD_eq_getElem _ _ hj,
        List.getElem_map]
    exact ⟨rfl, rfl⟩

/-- Witness for claim C5 on a concrete histogram with one channel, one
sample, scale 3, tscale 2 and time edges 0 and 5. -/
theorem claim_C5_serialization_witness :
    (channel_responses 2 3 [[1]] [0, 5]).tick
        = 2 * ([0, 5] : List ℚ).getD 1 0 - 2 * ([0, 5] : List ℚ).getD 0 0 ∧
    (channel_responses 2 3 [[1]] [0, 5]).channels.getD 0 (0, [])
        = ((0 : ℤ), (([[1]] : List (List ℚ)).getD 0 []).map
            fun x => sig6 (x * 3)) :=
  ⟨(claim_C5_serialization 2 3 [[1]] [0, 5] frEx).1,
   (claim_C5_serialization 2 3 [[1]] [0, 5] frEx).2.2.1 0 (by decide)⟩

/-- Claim C8: baseline_subtract returns a frame of the same shape where
entry (c, t) is the input entry minus the median of input row c; the
model is a pure function, matching the numpy expression in the source
which allocates a new array and leaves its input unmodified. -/
theorem claim_C8_baseline_subtract (frame : List (List ℚ)) :
    (baseline_subtract frame).length = frame.length ∧
    ∀ c, c < frame.length →
      ((baseline_subtract frame).getD c []).length = (frame.getD c []).length ∧
      ∀ t, t < (frame.getD c []).length →
        ((baseline_subtract frame).getD c []).getD t 0
          = (frame.getD c []).getD t 0 - npmedian (frame.getD c []) := by
  refine ⟨by simp [baseline_subtract], ?_⟩
  intro c hc
  have hc2 : c < (baseline_subtract frame).length := by
    simpa [baseline_subtract] using hc
  rw [List.getD_eq_getElem _ _ hc2, List.getD_eq_getElem _ _ hc]
  simp only [baseline_subtract, List.getElem_map]
  refine ⟨by simp, ?_⟩
  intro t ht
  have ht2 : t < ((frame[c]).map fun x => x - npmedian (frame[c])).length := by
    simpa using ht
  rw [List.getD_eq_getElem _ _ ht2, List.getD_eq_getElem _ _ ht]
  simp

/-- Witness for claim C8 on the concrete frame [[3, 1, 2]], whose row
median is 2, so the baseline-subtracted frame is [[1, -1, 0]]. -/
theorem claim_C8_baseline_subtract_witness :
    (((baseline_subtract [[(3 : ℚ), 1, 2]]).getD 0 []).getD 1 0
      = (([[(3 : ℚ), 1, 2]].getD 0 []).getD 1 0)
          - npmedian ([[(3 : ℚ), 1, 2]].getD 0 [])) ∧
    npmedian [(3 : ℚ), 1, 2] = 2 ∧
    baseline_subtract [[(3 : ℚ), 1, 2]] = [[1, -1, 0]] :=
  ⟨((claim_C8_baseline_subtract [[3, 1, 2]]).2 0 (by decide)).2 1 (by decide),
   by norm_num [npmedian, List.insertionSort, List.orderedInsert],
   by norm_num [baseline_subtract, npmedian, List.insertionSort, List.orderedInsert]⟩

end WireCell
